import Mathlib

set_option maxRecDepth 4000

/-!  Shallow embedding of the dependency-cycle detector
     (`scripts/circular_deps.py`): import extraction, import resolution,
     dependency-graph construction, DFS cycle finding, and cycle
     normalization/deduplication, together with proofs of the spec's
     claims about them.

     Modelling conventions:
     * a `Node` is a canonical absolute path string (`str(Path)` in the source);
     * the filesystem is a list of the regular files that exist
       (`candidate.exists() and candidate.is_file()` becomes membership);
     * reading a file yields `Except String String` (`Except.error` models a
       read/decode failure caught by the `try/except` in `extract_imports`);
     * the Python regular expressions of `IMPORT_PATTERNS` are embedded as
       pattern ASTs interpreted by a backtracking matcher (`matchAtoms`)
       and a left-to-right non-overlapping scanner (`scanFrom`), mirroring
       `re.finditer` with `re.MULTILINE` on this pattern fragment;
     * the recursive `dfs` of `find_cycles` becomes a fuel-indexed step
       function; the fuel actually used is the number of graph nodes, and
       (claim C9) any fuel at least that bound gives the same result.  -/

namespace CircularDeps

abbrev Node := String

/-! ### String helpers: ASCII models of the Python `str` operations used -/

/-- `s.startswith(pre)`. -/
def strStartsWith (s pre : String) : Bool := pre.data.isPrefixOf s.data

/-- `s[n:]`. -/
def strDrop (s : String) (n : Nat) : String := ⟨s.data.drop n⟩

/-- Lexicographic `<` on strings (Python compares `str(path)` values). -/
def strLtB : List Char → List Char → Bool
  | [], [] => false
  | [], _ :: _ => true
  | _ :: _, [] => false
  | a :: as, b :: bs =>
    if a.toNat < b.toNat then true
    else if b.toNat < a.toNat then false
    else strLtB as bs

def splitOnCharAux (sep : Char) : List Char → List Char → List String
  | acc, [] => [⟨acc.reverse⟩]
  | acc, c :: cs =>
    if c = sep then ⟨acc.reverse⟩ :: splitOnCharAux sep [] cs
    else splitOnCharAux sep (c :: acc) cs

/-- Split a string at a separator character (`str.split(sep)`). -/
def splitOnChar (sep : Char) (s : String) : List String :=
  splitOnCharAux sep [] s.data

/-- Join path components with `/` (`pathlib` string rendering). -/
def intercalateSlash : List String → String
  | [] => ""
  | [s] => s
  | s :: rest => s ++ "/" ++ intercalateSlash rest

/-! ### Posix path model of the `pathlib.Path` operations used -/

/-- `Path(p).parts` (for the containment test against excluded directories). -/
def pathParts (p : String) : List String := splitOnChar '/' p

/-- `Path(p).parent` as a string. -/
def dirname (p : String) : String :=
  intercalateSlash (pathParts p).dropLast

/-- `Path(a) / b` for a relative `b`. -/
def joinPath (a b : String) : String := a ++ "/" ++ b

/-- Collapse `.` and `..` segments, accumulator holds segments reversed. -/
def normSegs : List String → List String → List String
  | acc, [] => acc.reverse
  | acc, s :: rest =>
    if s = "" ∨ s = "." then normSegs acc rest
    else if s = ".." then normSegs acc.tail rest
    else normSegs (s :: acc) rest

/-- `Path(p).resolve()` on an absolute path, with no symlinks on disk:
    collapse empty, `.` and `..` segments. -/
def resolvePath (p : String) : String :=
  "/" ++ intercalateSlash (normSegs [] (pathParts p))

/-- `Path(p).suffix[1:]`: the final extension without its dot. -/
def suffixOf (p : String) : String :=
  let name := (pathParts p).getLastD ""
  let segs := splitOnChar '.' name
  if segs.length ≤ 1 then ""
  else if segs.length = 2 ∧ segs.headD "" = "" then ""
  else segs.getLastD ""

/-! ### The regular-expression fragment used by `IMPORT_PATTERNS`

An import pattern is a sequence of atoms; `matchAtoms` is a backtracking
matcher for one anchored attempt (greedy `\s+`, `\s*` and character-class
groups try longest first; the lazy `.*?` tries shortest first; `['\"]`
matches either quote; group 1 is the single `capture` atom).  `scanFrom`
scans a text left to right, emitting non-overlapping matches in order and
honouring `^` (under `re.MULTILINE`) for anchored patterns.  -/

def quoteChar1 : Char := Char.ofNat 39
def quoteChar2 : Char := Char.ofNat 34

/-- `\s` (ASCII). -/
def isSpaceChar (c : Char) : Bool :=
  c = ' ' ∨ c = '\t' ∨ c = '\n' ∨ c = '\r' ∨ c = Char.ofNat 11 ∨ c = Char.ofNat 12

/-- `[\w.]`. -/
def isWordDotChar (c : Char) : Bool := c.isAlphanum ∨ c = '_' ∨ c = '.'

/-- `[^'"]`. -/
def notQuoteChar (c : Char) : Bool := ¬ (c = quoteChar1 ∨ c = quoteChar2)

inductive PatAtom where
  | lit (s : List Char)
  | ws1
  | ws0
  | lazyAny
  | quote
  | capture (cls : Char → Bool)

def countLeading (p : Char → Bool) : List Char → Nat
  | [] => 0
  | c :: cs => if p c then countLeading p cs + 1 else 0

/-- Match a pattern at the start of `cs`; return the group-1 capture and
    the length of the whole match. -/
def matchAtoms : List PatAtom → List Char → Option (Option String × Nat)
  | [], _ => some (none, 0)
  | PatAtom.lit s :: rest, cs =>
    if s.isPrefixOf cs then
      (matchAtoms rest (cs.drop s.length)).map (fun r => (r.1, r.2 + s.length))
    else none
  | PatAtom.ws1 :: rest, cs =>
    let m := countLeading isSpaceChar cs
    ((List.range m).map (fun j => m - j)).findSome? (fun k =>
      (matchAtoms rest (cs.drop k)).map (fun r => (r.1, r.2 + k)))
  | PatAtom.ws0 :: rest, cs =>
    let m := countLeading isSpaceChar cs
    ((List.range (m + 1)).map (fun j => m - j)).findSome? (fun k =>
      (matchAtoms rest (cs.drop k)).map (fun r => (r.1, r.2 + k)))
  | PatAtom.lazyAny :: rest, cs =>
    let m := countLeading (fun c => ¬ (c = '\n')) cs
    (List.range (m + 1)).findSome? (fun k =>
      (matchAtoms rest (cs.drop k)).map (fun r => (r.1, r.2 + k)))
  | PatAtom.quote :: rest, cs =>
    match cs with
    | [] => none
    | c :: cs0 =>
      if c = quoteChar1 ∨ c = quoteChar2 then
        (matchAtoms rest cs0).map (fun r => (r.1, r.2 + 1))
      else none
  | PatAtom.capture cls :: rest, cs =>
    let m := countLeading cls cs
    ((List.range m).map (fun j => m - j)).findSome? (fun k =>
      (matchAtoms rest (cs.drop k)).map (fun r => (some (⟨cs.take k⟩ : String), r.2 + k)))

def lastIsNewline (l : List Char) : Bool :=
  match l.getLast? with
  | some c => c = '\n'
  | none => false

/-- `re.finditer` over the text: at each position, try the pattern
    (anchored patterns only where `^` matches under `re.MULTILINE`); on a
    match emit `(position, group 1)` and continue after the match.  Fuel is
    the remaining text length plus one and never runs out. -/
def scanFrom (anchored : Bool) (pats : List PatAtom) :
    Nat → Nat → Bool → List Char → List (Nat × String)
  | 0, _, _, _ => []
  | _ + 1, _, _, [] => []
  | fuel + 1, pos, atStart, c :: cs =>
    match (if anchored ∧ ¬ atStart then none else matchAtoms pats (c :: cs)) with
    | some (capOpt, len) =>
      let len1 := max len 1
      (pos, capOpt.getD "") ::
        scanFrom anchored pats fuel (pos + len1)
          (lastIsNewline ((c :: cs).take len1)) ((c :: cs).drop len1)
    | none => scanFrom anchored pats fuel (pos + 1) (c = '\n') cs

structure ImportPattern where
  anchored : Bool
  atoms : List PatAtom

/-- All matches of one pattern in the text, as `(position, group 1)`. -/
def findIter (p : ImportPattern) (content : String) : List (Nat × String) :=
  scanFrom p.anchored p.atoms (content.data.length + 1) 0 true content.data

/-- The four TypeScript/JavaScript regexes of `IMPORT_PATTERNS`. -/
def tsPatterns : List ImportPattern :=
  [ ⟨false, [PatAtom.lit "import".data, PatAtom.ws1, PatAtom.lazyAny, PatAtom.ws1,
             PatAtom.lit "from".data, PatAtom.ws1, PatAtom.quote,
             PatAtom.capture notQuoteChar, PatAtom.quote]⟩,
    ⟨false, [PatAtom.lit "import".data, PatAtom.ws0, PatAtom.lit "(".data,
             PatAtom.quote, PatAtom.capture notQuoteChar, PatAtom.quote,
             PatAtom.lit ")".data]⟩,
    ⟨false, [PatAtom.lit "require".data, PatAtom.ws0, PatAtom.lit "(".data,
             PatAtom.quote, PatAtom.capture notQuoteChar, PatAtom.quote,
             PatAtom.lit ")".data]⟩,
    ⟨false, [PatAtom.lit "export".data, PatAtom.ws1, PatAtom.lazyAny, PatAtom.ws1,
             PatAtom.lit "from".data, PatAtom.ws1, PatAtom.quote,
             PatAtom.capture notQuoteChar, PatAtom.quote]⟩ ]

/-- The two Python regexes of `IMPORT_PATTERNS` (both `^`-anchored). -/
def pyPatterns : List ImportPattern :=
  [ ⟨true, [PatAtom.lit "from".data, PatAtom.ws1, PatAtom.capture isWordDotChar,
            PatAtom.ws1, PatAtom.lit "import".data]⟩,
    ⟨true, [PatAtom.lit "import".data, PatAtom.ws1, PatAtom.capture isWordDotChar]⟩ ]

def IMPORT_PATTERNS : List (String × List ImportPattern) :=
  [("ts", tsPatterns), ("js", tsPatterns), ("py", pyPatterns)]

/-- `IMPORT_PATTERNS.get(lang, [])`. -/
def patternsFor (lang : String) : List ImportPattern :=
  ((IMPORT_PATTERNS.find? (fun q => q.1 == lang)).map Prod.snd).getD []

/-- `extract_imports(file_path, lang)`.  The file's read result is passed
    in (`Except.error` models the read/decode failure swallowed by the
    source's `try/except`, which returns the imports collected so far,
    i.e. none). -/
def extract_imports (lang : String) (readResult : Except String String) : List String :=
  let patterns := patternsFor lang
  match readResult with
  | Except.error _ => []
  | Except.ok content =>
    (patterns.map (fun p => (findIter p content).map Prod.snd)).flatten

/-- Stable insertion by match position (for stating "encounter order"). -/
def insertByPos (q : Nat × String) : List (Nat × String) → List (Nat × String)
  | [] => [q]
  | r :: rs => if q.1 ≤ r.1 then q :: r :: rs else r :: insertByPos q rs

def sortByPos (l : List (Nat × String)) : List (Nat × String) :=
  l.foldr insertByPos []

/-- All matches of all patterns of the ecosystem, in text encounter order:
    what the spec's "ordered sequence (encounter order in the text)" means. -/
def encounterOrder (lang content : String) : List String :=
  (sortByPos (((patternsFor lang).map (fun p => findIter p content)).flatten)).map Prod.snd

/-! ### `resolve_import` -/

/-- The fixed candidate-suffix list tried by `resolve_import`. -/
def extCandidates : List String :=
  ["", ".ts", ".tsx", ".js", ".jsx", "/index.ts", "/index.tsx", "/index.js"]

/-- `candidate.exists() and candidate.is_file()`: `fs` lists the regular
    files that exist. -/
def isFile (fs : List Node) (c : String) : Bool := fs.contains c

/-- `resolve_import(import_path, from_file, project_root)` against
    filesystem `fs`. -/
def resolve_import (import_path from_file project_root : String) (fs : List Node) :
    Option Node :=
  if ¬ strStartsWith import_path "." ∧ ¬ strStartsWith import_path "@/" then none
  else
    let from_dir := dirname from_file
    let resolvedOpt : Option String :=
      if strStartsWith import_path "." then
        some (resolvePath (joinPath from_dir import_path))
      else if strStartsWith import_path "@/" then
        some (resolvePath (joinPath (joinPath project_root "src") (strDrop import_path 2)))
      else none
    match resolvedOpt with
    | none => none
    | some resolved => (extCandidates.map (fun e => resolved ++ e)).find? (isFile fs)

/-! ### `build_dependency_graph` -/

/-- A graph is the `defaultdict(set)` of the source: keys in first-insertion
    order, each with its ordered adjacency set. -/
abbrev Graph := List (Node × List Node)

/-- `graph.get(node, set())`. -/
def adjOf (g : Graph) (n : Node) : List Node :=
  ((g.find? (fun p => p.1 == n)).map Prod.snd).getD []

/-- `graph[a].add(b)` on the `defaultdict(set)`. -/
def graphAdd (g : Graph) (a b : Node) : Graph :=
  match g with
  | [] => [(a, [b])]
  | (k, vs) :: rest =>
    if k = a then (k, if b ∈ vs then vs else vs ++ [b]) :: rest
    else (k, vs) :: graphAdd rest a b

/-- The inner loop of `build_dependency_graph`: resolve each raw import of
    one file and insert the resulting edges. -/
def processImports (project_root : String) (fs : List Node) (file : Node) :
    Graph → List String → Graph
  | g, [] => g
  | g, imp :: rest =>
    match resolve_import imp file project_root fs with
    | none => processImports project_root fs file g rest
    | some resolved => processImports project_root fs file (graphAdd g file resolved) rest

def excludedParts : List String :=
  ["node_modules", "__pycache__", ".git", "dist", "build"]

/-- `any(p in file_path.parts for p in [...])`. -/
def isExcluded (p : Node) : Bool :=
  excludedParts.any (fun e => (pathParts p).contains e)

def lang_map : List (String × String) :=
  [("ts", "ts"), ("tsx", "ts"), ("js", "js"), ("jsx", "js"), ("py", "py")]

/-- One iteration of the `build_dependency_graph` file loop. -/
def buildStep (project_root : String) (fs : List Node) (g : Graph)
    (file : Node × Except String String) : Graph :=
  if isExcluded file.1 then g
  else
    let ext := suffixOf file.1
    let lang := ((lang_map.find? (fun q => q.1 == ext)).map Prod.snd).getD "js"
    let imports := extract_imports lang file.2
    processImports project_root fs file.1 g imports

/-- `build_dependency_graph(path, extensions)`.  `files` is the list of
    scanned files produced by `find_files` (each with its read result) and
    `fs` the set of regular files on disk used by `resolve_import`. -/
def build_dependency_graph (files : List (Node × Except String String))
    (fs : List Node) (project_root : String) : Graph :=
  files.foldl (buildStep project_root fs) []

/-- Every node mentioned by the graph (keys and adjacency targets),
    with duplicates removed (first occurrence kept). -/
def dedupFirst : List Node → List Node
  | [] => []
  | a :: l => a :: (dedupFirst l).filter (fun x => ¬ (x = a))

def nodesList (g : Graph) : List Node :=
  g.map Prod.fst ++ (g.map Prod.snd).flatten

def graphNodes (g : Graph) : List Node := dedupFirst (nodesList g)

/-! ### `find_cycles` -/

structure DfsState where
  cycles : List (List Node)
  visited : List Node
  recStack : List Node
  path : List Node

/-- The back-edge branch of the inner `dfs`: record
    `path[path.index(neighbor):] + [neighbor]`. -/
def recordCycle (s : DfsState) (neighbor : Node) : DfsState :=
  let i := s.path.findIdx (fun x => x == neighbor)
  ⟨s.cycles ++ [s.path.drop i ++ [neighbor]], s.visited, s.recStack, s.path⟩

/-- The `for neighbor in graph.get(node, set())` loop of `dfs`;
    `visitF` is the recursive call at the remaining fuel. -/
def dfsNeighbors (visitF : Node → DfsState → DfsState) :
    List Node → DfsState → DfsState
  | [], s => s
  | neighbor :: rest, s =>
    dfsNeighbors visitF rest
      (if neighbor ∈ s.visited then
        (if neighbor ∈ s.recStack then recordCycle s neighbor else s)
      else visitF neighbor s)

/-- The recursive `dfs(node)` of `find_cycles`, fuel-indexed. -/
def dfsVisit (g : Graph) : Nat → Node → DfsState → DfsState
  | 0, _, s => s
  | fuel + 1, node, s =>
    let s1 : DfsState :=
      ⟨s.cycles, s.visited ++ [node], node :: s.recStack, s.path ++ [node]⟩
    let s2 := dfsNeighbors (fun m t => dfsVisit g fuel m t) (adjOf g node) s1
    ⟨s2.cycles, s2.visited, s2.recStack.erase node, s2.path.dropLast⟩

/-- The `for node in graph: if node not in visited: dfs(node)` loop. -/
def dfsForest (g : Graph) (fuel : Nat) : List Node → DfsState → DfsState
  | [], s => s
  | k :: rest, s =>
    dfsForest g fuel rest (if k ∈ s.visited then s else dfsVisit g fuel k s)

def initState : DfsState := ⟨[], [], [], []⟩

def find_cycles_fuel (g : Graph) (fuel : Nat) : List (List Node) :=
  (dfsForest g fuel (g.map Prod.fst) initState).cycles

/-- `find_cycles(graph)`; the fuel actually needed is at most the number
    of distinct nodes (claim C9). -/
def find_cycles (g : Graph) : List (List Node) :=
  find_cycles_fuel g (graphNodes g).length

/-! ### The deduplication pass of `main` (`Normalize`) -/

/-- `min(cycle[:-1], key=str)`: first lexicographically-least element. -/
def listMinStr : List Node → Node
  | [] => ""
  | x :: xs => xs.foldl (fun a b => if strLtB b.data a.data then b else a) x

/-- The canonical form computed inside the dedup loop:
    `tuple(cycle[min_idx:-1]) + tuple(cycle[:min_idx]) + (cycle[min_idx],)`. -/
def normalizeCycle (cycle : List Node) : List Node :=
  let m := listMinStr cycle.dropLast
  let i := cycle.findIdx (fun x => x == m)
  cycle.dropLast.drop i ++ cycle.take i ++ [cycle.getD i ""]

/-- The dedup loop of `main`: keep the first cycle of each canonical form. -/
def normalize (cycles : List (List Node)) : List (List Node) :=
  (cycles.foldl
    (fun (acc : List (List Node) × List (List Node)) cycle =>
      let n := normalizeCycle cycle
      if n ∈ acc.2 then acc else (acc.1 ++ [cycle], acc.2 ++ [n]))
    ([], [])).1

/-! ### Specification predicates -/

/-- `a → b` is an edge: `b` is among the resolved imports of `a`. -/
def isEdge (g : Graph) (a b : Node) : Prop := b ∈ adjOf g a

/-- The graph has no directed cycle. -/
def Acyclic (g : Graph) : Prop := ∀ n, ¬ Relation.TransGen (isEdge g) n n

/-- `c` is an elementary cycle of `g`: it has the shape `[n, p₁, …, pₖ, n]`,
    consecutive elements are edges, and no node repeats other than the
    closing repetition of `n`. -/
def IsElemCycle (g : Graph) (c : List Node) : Prop :=
  ∃ n p, c = n :: (p ++ [n]) ∧ List.Chain (isEdge g) n (p ++ [n]) ∧ (n :: p).Nodup

/-- The DFS state invariant: the path stack is a duplicate-free chain of
    edges, the recursion-stack set has the same members as the path stack,
    every stacked node is visited, and every recorded cycle is an
    elementary cycle of the graph. -/
structure Inv (g : Graph) (s : DfsState) : Prop where
  chain : List.Chain' (isEdge g) s.path
  nodup : s.path.Nodup
  stack_iff : ∀ x, x ∈ s.recStack ↔ x ∈ s.path
  path_vis : ∀ x, x ∈ s.path → x ∈ s.visited
  cycles_ok : ∀ c, c ∈ s.cycles → IsElemCycle g c

/-- `s'` extends `s`: the visited set and the cycle list only grow at the
    end (nothing is ever removed or reordered). -/
def StateExt (s s' : DfsState) : Prop :=
  (∃ l, s'.visited = s.visited ++ l) ∧ (∃ l, s'.cycles = s.cycles ++ l)

/-- How many graph nodes the DFS has not visited yet: the drive of the
    termination argument (claim C9). -/
def numUnvisited (g : Graph) (s : DfsState) : Nat :=
  ((graphNodes g).filter (fun x => ¬ (x ∈ s.visited))).length

/-- The invariant of the graph under construction: every key was created
    together with at least one outgoing edge, and keys are unique. -/
def GoodGraph (g : Graph) : Prop :=
  (∀ kv ∈ g, kv.2 ≠ ([] : List Node)) ∧ (g.map Prod.fst).Nodup

/-- The three triangle nodes in each of the six possible dictionary
    (= DFS entry) orders, adjacency forming the cycle a → b → c → a. -/
def trianglePerms : List Graph :=
  [ [("a", ["b"]), ("b", ["c"]), ("c", ["a"])],
    [("a", ["b"]), ("c", ["a"]), ("b", ["c"])],
    [("b", ["c"]), ("a", ["b"]), ("c", ["a"])],
    [("b", ["c"]), ("c", ["a"]), ("a", ["b"])],
    [("c", ["a"]), ("a", ["b"]), ("b", ["c"])],
    [("c", ["a"]), ("b", ["c"]), ("a", ["b"])] ]

/-- The base candidate path computed by `resolve_import` for a relative or
    aliased import (the `resolved` variable of the source). -/
def resolveBase (import_path from_file project_root : String) : String :=
  if strStartsWith import_path "." then resolvePath (joinPath (dirname from_file) import_path)
  else resolvePath (joinPath (joinPath project_root "src") (strDrop import_path 2))

/-! ## Theorems -/

/-- C1: for the triangle graph a → b → c → a, `find_cycles` followed by
    `normalize` returns exactly one cycle, whose nodes are exactly
    `{a, b, c}`, for every one of the six possible dictionary orders (hence
    for every choice of which node the DFS visits first); and two raw
    cycles that are rotations of one another deduplicate to one entry. -/
theorem triangle_normalize_unique :
    (∀ g ∈ trianglePerms,
      (normalize (find_cycles g)).length = 1 ∧
      ∀ c ∈ normalize (find_cycles g),
        (∀ x ∈ c, x ∈ (["a", "b", "c"] : List Node)) ∧
        (∀ y ∈ (["a", "b", "c"] : List Node), y ∈ c)) ∧
    normalize [["a", "b", "c", "a"], ["b", "c", "a", "b"]] = [["a", "b", "c", "a"]] := by
  decide

theorem triangle_normalize_unique_witness :
    (normalize (find_cycles [("a", ["b"]), ("b", ["c"]), ("c", ["a"])])).length = 1 :=
  (triangle_normalize_unique.1 [("a", ["b"]), ("b", ["c"]), ("c", ["a"])] (by decide)).1

/-- C6: `extract_imports` is a total function (it cannot raise), and on a
    read/decode failure — the `except` path of the source — it returns the
    empty list, so the file contributes zero imports. -/
theorem extract_imports_read_failure :
    ∀ (lang msg : String), extract_imports lang (Except.error msg) = [] :=
  fun _ _ => rfl

/-- C5 (counterexample): the extractor does not return matches in text
    encounter order.  On `"import b\nfrom a import x\n"` the `py` table
    yields `["a", "b"]` (all matches of the `from … import` pattern first),
    while the encounter order of the two imports in the text is
    `["b", "a"]`. -/
theorem extract_imports_not_encounter_order :
    extract_imports "py" (Except.ok "import b\nfrom a import x\n") = ["a", "b"] ∧
    encounterOrder "py" "import b\nfrom a import x\n" = ["b", "a"] ∧
    (["a", "b"] : List String) ≠ ["b", "a"] := by
  decide

theorem scanFrom_pos_le (anchored : Bool) (pats : List PatAtom) :
    ∀ (fuel pos : Nat) (atStart : Bool) (cs : List Char) (q : Nat × String),
      q ∈ scanFrom anchored pats fuel pos atStart cs → pos ≤ q.1 := by
  intro fuel
  induction fuel with
  | zero => intro pos atStart cs q hq; simp [scanFrom] at hq
  | succ f ih =>
    intro pos atStart cs q hq
    cases cs with
    | nil => simp [scanFrom] at hq
    | cons c cs0 =>
      simp only [scanFrom] at hq
      split at hq
      · rcases List.mem_cons.mp hq with h | h
        · subst h; exact Nat.le_refl _
        · have := ih _ _ _ _ h
          omega
      · have := ih _ _ _ _ hq
        omega

theorem scanFrom_chain (anchored : Bool) (pats : List PatAtom) :
    ∀ (fuel pos : Nat) (atStart : Bool) (cs : List Char),
      List.Chain' (fun q r : Nat × String => q.1 < r.1)
        (scanFrom anchored pats fuel pos atStart cs) := by
  intro fuel
  induction fuel with
  | zero => intro pos atStart cs; simp [scanFrom]
  | succ f ih =>
    intro pos atStart cs
    cases cs with
    | nil => simp [scanFrom]
    | cons c cs0 =>
      simp only [scanFrom]
      split
      · refine List.chain'_cons'.mpr ⟨?_, ih _ _ _⟩
        intro r hr
        have hmem := List.mem_of_mem_head? hr
        have := scanFrom_pos_le anchored pats _ _ _ _ _ hmem
        omega
      · exact ih _ _ _

/-- C5 (amended): the extractor collects all matches of every pattern with
    duplicates preserved, ordered pattern-major — the patterns in their
    table order, and within one pattern the matches in their text encounter
    order (strictly increasing positions); the concatenated sequence is not
    in general globally in text encounter order. -/
theorem extract_imports_pattern_major :
    ∀ (lang content : String),
      extract_imports lang (Except.ok content) =
        ((patternsFor lang).map (fun p => (findIter p content).map Prod.snd)).flatten ∧
      ∀ p : ImportPattern,
        List.Chain' (fun q r : Nat × String => q.1 < r.1) (findIter p content) := by
  intro lang content
  exact ⟨rfl, fun p => scanFrom_chain p.anchored p.atoms _ _ _ _⟩

/-- C7 (counterexample): a scanned, eligible, non-excluded source file whose
    only import does not resolve is absent from the graph entirely — the
    built graph is empty, so the file is not a Node. -/
theorem build_graph_drops_isolated_file :
    build_dependency_graph [("/r/a.py", Except.ok "import x")] ["/r/a.py"] "/r" = [] ∧
    isExcluded "/r/a.py" = false ∧
    extract_imports "py" (Except.ok "import x") = ["x"] ∧
    ("/r/a.py" : Node) ∉
      graphNodes (build_dependency_graph [("/r/a.py", Except.ok "import x")] ["/r/a.py"] "/r") := by
  decide

theorem find?_split {α : Type} (p : α → Bool) :
    ∀ (l : List α) (a : α), l.find? p = some a →
      ∃ l1 l2, l = l1 ++ a :: l2 ∧ p a = true ∧ ∀ x ∈ l1, p x = false := by
  intro l
  induction l with
  | nil => intro a h; simp [List.find?] at h
  | cons x xs ih =>
    intro a h
    by_cases hx : p x
    · rw [List.find?_cons_of_pos _ hx] at h
      cases h
      exact ⟨[], xs, by simp, hx, by simp⟩
    · rw [List.find?_cons_of_neg _ (by simpa using hx)] at h
      obtain ⟨l1, l2, hsplit, hpa, hprev⟩ := ih a h
      refine ⟨x :: l1, l2, by simp [hsplit], hpa, ?_⟩
      intro y hy
      rcases List.mem_cons.mp hy with h | h
      · subst h; simpa using hx
      · exact hprev y h

/-- C4: for a relative or aliased import, `resolve_import` computes the
    base candidate and tries the fixed ordered suffix list (bare path,
    then each source extension, then each directory-index file), returning
    the first candidate that is an existing regular file, and `none` when
    no candidate is; the result is exactly the first-match search over the
    ordered candidate list. -/
theorem resolve_import_ordered_candidates :
    ∀ (imp f root : String) (fs : List Node),
      (strStartsWith imp "." = true ∨ strStartsWith imp "@/" = true) →
      (resolve_import imp f root fs
          = (extCandidates.map (fun e => resolveBase imp f root ++ e)).find? (isFile fs)) ∧
      ((∀ c ∈ extCandidates.map (fun e => resolveBase imp f root ++ e), isFile fs c = false) →
          resolve_import imp f root fs = none) ∧
      (∀ q, resolve_import imp f root fs = some q →
          ∃ l1 l2, extCandidates.map (fun e => resolveBase imp f root ++ e) = l1 ++ q :: l2 ∧
            isFile fs q = true ∧ ∀ c ∈ l1, isFile fs c = false) := by
  intro imp f root fs h
  have heq : resolve_import imp f root fs
      = (extCandidates.map (fun e => resolveBase imp f root ++ e)).find? (isFile fs) := by
    unfold resolve_import resolveBase
    rcases h with h | h
    · simp [h]
    · by_cases h2 : strStartsWith imp "."
      · simp [h2]
      · simp [h, h2]
  refine ⟨heq, ?_, ?_⟩
  · intro hall
    rw [heq]
    refine List.find?_eq_none.mpr ?_
    intro x hx
    simp [hall x hx]
  · intro q hq
    rw [heq] at hq
    exact find?_split _ _ _ hq

theorem resolve_import_ordered_candidates_witness :
    (strStartsWith "./utils" "." = true ∨ strStartsWith "./utils" "@/" = true) ∧
    resolve_import "./utils" "/r/src/a.ts" "/r" ["/r/src/utils.js"]
      = (extCandidates.map (fun e => resolveBase "./utils" "/r/src/a.ts" "/r" ++ e)).find?
          (isFile ["/r/src/utils.js"]) :=
  ⟨Or.inl (by decide),
   (resolve_import_ordered_candidates "./utils" "/r/src/a.ts" "/r" ["/r/src/utils.js"]
      (Or.inl (by decide))).1⟩

theorem resolve_import_bare_none (imp f root : String) (fs : List Node)
    (h1 : strStartsWith imp "." = false) (h2 : strStartsWith imp "@/" = false) :
    resolve_import imp f root fs = none := by
  unfold resolve_import
  rw [if_pos]
  exact ⟨by simp [h1], by simp [h2]⟩

/-- C3: a bare/external import (no relative marker, no `@/` alias) always
    resolves to `none`, and consequently the graph-building loop adds no
    Node and no Edge for such imports: dropping them from a file's import
    list leaves the built graph unchanged. -/
theorem external_imports_excluded :
    (∀ (imp f root : String) (fs : List Node),
       strStartsWith imp "." = false → strStartsWith imp "@/" = false →
       resolve_import imp f root fs = none) ∧
    (∀ (root : String) (fs : List Node) (file : Node) (g : Graph) (imports : List String),
       processImports root fs file g
         (imports.filter (fun imp => strStartsWith imp "." || strStartsWith imp "@/"))
         = processImports root fs file g imports) := by
  constructor
  · exact resolve_import_bare_none
  · intro root fs file g imports
    induction imports generalizing g with
    | nil => rfl
    | cons imp rest ih =>
      by_cases hb : (strStartsWith imp "." || strStartsWith imp "@/") = true
      · have hf : List.filter (fun imp => strStartsWith imp "." || strStartsWith imp "@/") (imp :: rest)
            = imp :: List.filter (fun imp => strStartsWith imp "." || strStartsWith imp "@/") rest := by
          simp [List.filter_cons, hb]
        rw [hf]
        simp only [processImports]
        cases hres : resolve_import imp file root fs with
        | none => simpa [hres] using ih g
        | some b => simpa [hres] using ih (graphAdd g file b)
      · have hb0 : (strStartsWith imp "." || strStartsWith imp "@/") = false := by
          simpa using hb
        have hf : List.filter (fun imp => strStartsWith imp "." || strStartsWith imp "@/") (imp :: rest)
            = List.filter (fun imp => strStartsWith imp "." || strStartsWith imp "@/") rest := by
          simp [List.filter_cons, hb0]
        rw [hf]
        simp only [Bool.or_eq_true, not_or, Bool.not_eq_true] at hb
        have hres : resolve_import imp file root fs = none :=
          resolve_import_bare_none imp file root fs hb.1 hb.2
        simp only [processImports, hres]
        exact ih g

theorem external_imports_excluded_witness :
    resolve_import "lodash" "/r/src/a.ts" "/r" ["/r/src/lodash.ts"] = none ∧
    processImports "/r" ["/r/b.ts"] "/r/a.ts" []
        (["lodash", "./b"].filter (fun imp => strStartsWith imp "." || strStartsWith imp "@/"))
      = processImports "/r" ["/r/b.ts"] "/r/a.ts" [] ["lodash", "./b"] :=
  ⟨external_imports_excluded.1 "lodash" "/r/src/a.ts" "/r" ["/r/src/lodash.ts"] rfl rfl,
   external_imports_excluded.2 "/r" ["/r/b.ts"] "/r/a.ts" [] ["lodash", "./b"]⟩

theorem dedupFirst_mem (a : Node) : ∀ l : List Node, a ∈ dedupFirst l ↔ a ∈ l := by
  intro l
  induction l with
  | nil => simp [dedupFirst]
  | cons x l ih =>
    by_cases h : a = x
    · simp [dedupFirst, h]
    · simp [dedupFirst, List.mem_filter, ih, h]

theorem graphAdd_keys (a b : Node) :
    ∀ g : Graph, (graphAdd g a b).map Prod.fst =
      if a ∈ g.map Prod.fst then g.map Prod.fst else g.map Prod.fst ++ [a] := by
  intro g
  induction g with
  | nil => simp [graphAdd]
  | cons kv rest ih =>
    obtain ⟨k, vs⟩ := kv
    by_cases hk : k = a
    · subst hk
      simp [graphAdd]
    · simp only [graphAdd, if_neg hk, List.map_cons, ih]
      by_cases hmem : a ∈ rest.map Prod.fst
      · simp [hmem, Ne.symm hk]
      · simp [hmem, Ne.symm hk]

theorem graphAdd_good (a b : Node) :
    ∀ g : Graph, GoodGraph g → GoodGraph (graphAdd g a b) := by
  intro g hg
  constructor
  · have h1 := hg.1
    clear hg
    induction g with
    | nil => intro kv hkv; simp [graphAdd] at hkv; simp [hkv]
    | cons kv0 rest ih =>
      obtain ⟨k, vs⟩ := kv0
      intro kv hkv
      by_cases hk : k = a
      · simp only [graphAdd, if_pos hk] at hkv
        rcases List.mem_cons.mp hkv with h | h
        · subst h
          have hvs : vs ≠ [] := h1 (k, vs) (List.mem_cons_self _ _)
          by_cases hb : b ∈ vs <;> simp [hb, hvs]
        · exact h1 kv (List.mem_cons_of_mem _ h)
      · simp only [graphAdd, if_neg hk] at hkv
        rcases List.mem_cons.mp hkv with h | h
        · subst h; exact h1 (k, vs) (List.mem_cons_self _ _)
        · exact ih (fun kv' hkv' => h1 kv' (List.mem_cons_of_mem _ hkv')) kv h
  · rw [graphAdd_keys]
    by_cases hmem : a ∈ g.map Prod.fst
    · simpa [hmem] using hg.2
    · simp only [if_neg hmem]
      simpa [List.nodup_append, hmem] using hg.2

theorem processImports_good (root : String) (fs : List Node) (file : Node) :
    ∀ (imports : List String) (g : Graph), GoodGraph g →
      GoodGraph (processImports root fs file g imports) := by
  intro imports
  induction imports with
  | nil => intro g hg; exact hg
  | cons imp rest ih =>
    intro g hg
    simp only [processImports]
    cases hres : resolve_import imp file root fs with
    | none => exact ih g hg
    | some resolved => exact ih (graphAdd g file resolved) (graphAdd_good _ _ _ hg)

theorem build_graph_good (files : List (Node × Except String String))
    (fs : List Node) (root : String) :
    GoodGraph (build_dependency_graph files fs root) := by
  have hinit : GoodGraph ([] : Graph) := ⟨by simp, by simp⟩
  unfold build_dependency_graph
  generalize ([] : Graph) = g0 at hinit ⊢
  induction files generalizing g0 with
  | nil => exact hinit
  | cons file rest ih =>
    simp only [List.foldl_cons]
    apply ih
    unfold buildStep
    by_cases hex : isExcluded file.1
    · simpa [hex] using hinit
    · simp only [if_neg hex]
      exact processImports_good _ _ _ _ _ hinit

theorem adjOf_of_find? (g : Graph) (a : Node) (kv : Node × List Node)
    (h : g.find? (fun p => p.1 == a) = some kv) : adjOf g a = kv.2 := by
  simp [adjOf, h]

theorem find?_first_key (a : Node) :
    ∀ g : Graph, a ∈ g.map Prod.fst →
      ∃ kv, g.find? (fun p => p.1 == a) = some kv ∧ kv ∈ g ∧ kv.1 = a := by
  intro g
  induction g with
  | nil => intro h; simp at h
  | cons kv0 rest ih =>
    intro h
    by_cases hk : kv0.1 = a
    · refine ⟨kv0, ?_, List.mem_cons_self _ _, hk⟩
      rw [List.find?_cons_of_pos _ (by simpa using hk)]
    · have hmem : a ∈ rest.map Prod.fst := by
        rw [List.map_cons] at h
        rcases List.mem_cons.mp h with h0 | h0
        · exact absurd h0.symm hk
        · exact h0
      obtain ⟨kv, hfind, hkv, hkey⟩ := ih hmem
      refine ⟨kv, ?_, List.mem_cons_of_mem _ hkv, hkey⟩
      rw [List.find?_cons_of_neg _ (by simpa using hk), hfind]

theorem adjOf_eq_of_mem_nodup (k : Node) (vs : List Node) :
    ∀ g : Graph, (g.map Prod.fst).Nodup → (k, vs) ∈ g → adjOf g k = vs := by
  intro g
  induction g with
  | nil => intro _ h; simp at h
  | cons kv0 rest ih =>
    intro hnd hmem
    have hnd2 : (kv0.1 :: rest.map Prod.fst).Nodup := by
      rw [List.map_cons] at hnd
      exact hnd
    rcases List.mem_cons.mp hmem with h | h
    · subst h
      exact adjOf_of_find? _ _ (k, vs) (by rw [List.find?_cons_of_pos _ (by simp)])
    · have hk : kv0.1 ≠ k := by
        intro hkk
        have hmk : k ∈ rest.map Prod.fst := List.mem_map_of_mem Prod.fst h
        have := (List.nodup_cons.mp hnd2).1
        rw [hkk] at this
        exact this hmk
      have hstep : adjOf (kv0 :: rest) k = adjOf rest k := by
        unfold adjOf
        rw [List.find?_cons_of_neg _ (by simpa using hk)]
      rw [hstep]
      exact ih (List.nodup_cons.mp hnd2).2 h

/-- C7 (amended): a scanned source file appears as a Node of the built
    graph only when it participates in at least one resolved edge — every
    node of the graph has an outgoing or incoming edge, and a scanned
    eligible file none of whose imports resolve is omitted entirely. -/
theorem build_graph_nodes_have_edges :
    ∀ (files : List (Node × Except String String)) (fs : List Node) (root : String)
      (a : Node), a ∈ graphNodes (build_dependency_graph files fs root) →
      (∃ b, isEdge (build_dependency_graph files fs root) a b) ∨
      (∃ k, isEdge (build_dependency_graph files fs root) k a) := by
  intro files fs root a ha
  set G := build_dependency_graph files fs root with hG
  have hgood : GoodGraph G := build_graph_good files fs root
  have ha2 : a ∈ nodesList G := (dedupFirst_mem a _).mp ha
  rcases List.mem_append.mp ha2 with hkey | htgt
  · left
    obtain ⟨kv, hfind, hkv, hkey'⟩ := find?_first_key a G hkey
    have hadj : adjOf G a = kv.2 := adjOf_of_find? G a kv hfind
    have hne : kv.2 ≠ [] := hgood.1 kv hkv
    obtain ⟨b, hb⟩ := List.exists_mem_of_ne_nil kv.2 hne
    exact ⟨b, by simpa [isEdge, hadj] using hb⟩
  · right
    obtain ⟨l, hl, hal⟩ := List.mem_flatten.mp htgt
    obtain ⟨kv, hkv, hsnd⟩ := List.mem_map.mp hl
    refine ⟨kv.1, ?_⟩
    have : adjOf G kv.1 = kv.2 := by
      apply adjOf_eq_of_mem_nodup kv.1 kv.2 G hgood.2
      simpa using hkv
    simpa [isEdge, this, hsnd] using hal

theorem build_graph_nodes_have_edges_witness :
    (("/r/a.ts" : Node) ∈ graphNodes
        (build_dependency_graph
          [("/r/a.ts", Except.ok "import q from \"./b\"")] ["/r/a.ts", "/r/b.ts"] "/r")) ∧
    ((∃ b, isEdge (build_dependency_graph
          [("/r/a.ts", Except.ok "import q from \"./b\"")] ["/r/a.ts", "/r/b.ts"] "/r") "/r/a.ts" b) ∨
     (∃ k, isEdge (build_dependency_graph
          [("/r/a.ts", Except.ok "import q from \"./b\"")] ["/r/a.ts", "/r/b.ts"] "/r") k "/r/a.ts")) :=
  ⟨by decide,
   build_graph_nodes_have_edges
     [("/r/a.ts", Except.ok "import q from \"./b\"")] ["/r/a.ts", "/r/b.ts"] "/r"
     "/r/a.ts" (by decide)⟩

/-! ### DFS bookkeeping lemmas: the path and recursion stacks are restored
    on return, and the visited set and cycle list only grow. -/

theorem stateExt_rfl (s : DfsState) : StateExt s s :=
  ⟨⟨[], by simp⟩, ⟨[], by simp⟩⟩

theorem stateExt_trans {s t u : DfsState} (h1 : StateExt s t) (h2 : StateExt t u) :
    StateExt s u := by
  obtain ⟨⟨l1, hv1⟩, ⟨c1, hc1⟩⟩ := h1
  obtain ⟨⟨l2, hv2⟩, ⟨c2, hc2⟩⟩ := h2
  exact ⟨⟨l1 ++ l2, by rw [hv2, hv1, List.append_assoc]⟩,
         ⟨c1 ++ c2, by rw [hc2, hc1, List.append_assoc]⟩⟩

theorem stateExt_vis {s t : DfsState} (h : StateExt s t) {x : Node}
    (hx : x ∈ s.visited) : x ∈ t.visited := by
  obtain ⟨l, hl⟩ := h.1
  rw [hl]
  exact List.mem_append_left _ hx

theorem stateExt_cyc {s t : DfsState} (h : StateExt s t) {c : List Node}
    (hc : c ∈ s.cycles) : c ∈ t.cycles := by
  obtain ⟨l, hl⟩ := h.2
  rw [hl]
  exact List.mem_append_left _ hc

theorem recordCycle_ext (s : DfsState) (n : Node) : StateExt s (recordCycle s n) :=
  ⟨⟨[], by simp [recordCycle]⟩,
   ⟨[s.path.drop (s.path.findIdx (fun x => x == n)) ++ [n]], rfl⟩⟩

theorem dfsNeighbors_path_stack (visitF : Node → DfsState → DfsState)
    (hF : ∀ m t, (visitF m t).path = t.path ∧ (visitF m t).recStack = t.recStack) :
    ∀ (ns : List Node) (s : DfsState),
      (dfsNeighbors visitF ns s).path = s.path ∧
      (dfsNeighbors visitF ns s).recStack = s.recStack := by
  intro ns
  induction ns with
  | nil => intro s; exact ⟨rfl, rfl⟩
  | cons neighbor rest ih =>
    intro s
    simp only [dfsNeighbors]
    by_cases h1 : neighbor ∈ s.visited
    · by_cases h2 : neighbor ∈ s.recStack
      · rw [if_pos h1, if_pos h2]
        refine ⟨((ih _).1).trans ?_, ((ih _).2).trans ?_⟩ <;> simp [recordCycle]
      · rw [if_pos h1, if_neg h2]
        exact ih s
    · rw [if_neg h1]
      exact ⟨((ih _).1).trans (hF neighbor s).1, ((ih _).2).trans (hF neighbor s).2⟩

theorem dfsVisit_path_stack (g : Graph) :
    ∀ (fuel : Nat) (node : Node) (s : DfsState),
      (dfsVisit g fuel node s).path = s.path ∧
      (dfsVisit g fuel node s).recStack = s.recStack := by
  intro fuel
  induction fuel with
  | zero => intro node s; exact ⟨rfl, rfl⟩
  | succ f ih =>
    intro node s
    simp only [dfsVisit]
    have hns := dfsNeighbors_path_stack (fun m t => dfsVisit g f m t)
      (fun m t => ih m t) (adjOf g node)
      ⟨s.cycles, s.visited ++ [node], node :: s.recStack, s.path ++ [node]⟩
    refine ⟨?_, ?_⟩
    · show (dfsNeighbors _ _ _).path.dropLast = s.path
      rw [hns.1]
      simp
    · show (dfsNeighbors _ _ _).recStack.erase node = s.recStack
      rw [hns.2]
      simp

theorem dfsNeighbors_ext (visitF : Node → DfsState → DfsState)
    (hF : ∀ m t, StateExt t (visitF m t)) :
    ∀ (ns : List Node) (s : DfsState), StateExt s (dfsNeighbors visitF ns s) := by
  intro ns
  induction ns with
  | nil => intro s; exact stateExt_rfl s
  | cons neighbor rest ih =>
    intro s
    simp only [dfsNeighbors]
    by_cases h1 : neighbor ∈ s.visited
    · by_cases h2 : neighbor ∈ s.recStack
      · rw [if_pos h1, if_pos h2]
        exact stateExt_trans (recordCycle_ext s neighbor) (ih _)
      · rw [if_pos h1, if_neg h2]
        exact ih s
    · rw [if_neg h1]
      exact stateExt_trans (hF neighbor s) (ih _)

theorem dfsVisit_ext (g : Graph) :
    ∀ (fuel : Nat) (node : Node) (s : DfsState), StateExt s (dfsVisit g fuel node s) := by
  intro fuel
  induction fuel with
  | zero => intro node s; exact stateExt_rfl s
  | succ f ih =>
    intro node s
    simp only [dfsVisit]
    have h1 : StateExt s ⟨s.cycles, s.visited ++ [node], node :: s.recStack, s.path ++ [node]⟩ :=
      ⟨⟨[node], rfl⟩, ⟨[], by simp⟩⟩
    have h2 := dfsNeighbors_ext (fun m t => dfsVisit g f m t) (fun m t => ih m t)
      (adjOf g node) ⟨s.cycles, s.visited ++ [node], node :: s.recStack, s.path ++ [node]⟩
    exact stateExt_trans (stateExt_trans h1 h2) ⟨⟨[], by simp⟩, ⟨[], by simp⟩⟩

theorem dfsForest_ext (g : Graph) (fuel : Nat) :
    ∀ (keys : List Node) (s : DfsState), StateExt s (dfsForest g fuel keys s) := by
  intro keys
  induction keys with
  | nil => intro s; exact stateExt_rfl s
  | cons k rest ih =>
    intro s
    simp only [dfsForest]
    by_cases h : k ∈ s.visited
    · rw [if_pos h]
      exact ih s
    · rw [if_neg h]
      exact stateExt_trans (dfsVisit_ext g fuel k s) (ih _)

theorem dfsForest_path_stack (g : Graph) (fuel : Nat) :
    ∀ (keys : List Node) (s : DfsState),
      (dfsForest g fuel keys s).path = s.path ∧
      (dfsForest g fuel keys s).recStack = s.recStack := by
  intro keys
  induction keys with
  | nil => intro s; exact ⟨rfl, rfl⟩
  | cons k rest ih =>
    intro s
    simp only [dfsForest]
    by_cases h : k ∈ s.visited
    · rw [if_pos h]
      exact ih s
    · rw [if_neg h]
      exact ⟨((ih _).1).trans (dfsVisit_path_stack g fuel k s).1,
             ((ih _).2).trans (dfsVisit_path_stack g fuel k s).2⟩

/-! ### List lemmas for the cycle-slice argument -/

theorem findIdx_drop_cons (n : Node) :
    ∀ l : List Node, n ∈ l →
      ∃ tail, l.drop (l.findIdx (fun x => x == n)) = n :: tail := by
  intro l
  induction l with
  | nil => intro h; simp at h
  | cons a l ih =>
    intro h
    by_cases ha : a = n
    · subst ha
      exact ⟨l, by simp [List.findIdx_cons]⟩
    · have hmem : n ∈ l := by
        rcases List.mem_cons.mp h with h0 | h0
        · exact absurd h0.symm ha
        · exact h0
      obtain ⟨tail, htail⟩ := ih hmem
      refine ⟨tail, ?_⟩
      rw [List.findIdx_cons]
      simp only [show (a == n) = false by simpa using ha, cond_false]
      simpa using htail

theorem chain'_drop {r : Node → Node → Prop} :
    ∀ (k : Nat) (l : List Node), List.Chain' r l → List.Chain' r (l.drop k) := by
  intro k
  induction k with
  | zero => intro l h; simpa using h
  | succ k ih =>
    intro l h
    cases l with
    | nil => simp
    | cons a l => simpa using ih l h.tail

theorem getLastD_cons_eq (c a : Node) (l : List Node) :
    (c :: l).getLastD a = l.getLastD c := by
  cases l with
  | nil => simp
  | cons z zs =>
    cases hgl : (z :: zs).getLast? with
    | none => simp at hgl
    | some w => simp [List.getLastD_eq_getLast?, List.getLast?_cons_cons, hgl]

theorem chain_snoc {r : Node → Node → Prop} :
    ∀ (l : List Node) (a b : Node), List.Chain r a l → r (l.getLastD a) b →
      List.Chain r a (l ++ [b]) := by
  intro l
  induction l with
  | nil =>
    intro a b _ hr
    exact List.Chain.cons (by simpa using hr) List.Chain.nil
  | cons c l ih =>
    intro a b hch hr
    cases hch with
    | cons hac hcl =>
      rw [getLastD_cons_eq] at hr
      exact List.Chain.cons hac (ih c b hcl hr)

theorem chain_transGen {r : Node → Node → Prop} :
    ∀ (l : List Node) (a b : Node), List.Chain r a l → l.getLast? = some b →
      Relation.TransGen r a b := by
  intro l
  induction l with
  | nil => intro a b _ h; simp at h
  | cons x l ih =>
    intro a b hch hlast
    cases hch with
    | cons hax hxl =>
      cases l with
      | nil =>
        have hxb : x = b := by simpa using hlast
        subst hxb
        exact Relation.TransGen.single hax
      | cons y l2 =>
        have hlast2 : (y :: l2).getLast? = some b := by
          simpa [List.getLast?_cons_cons] using hlast
        exact Relation.TransGen.head hax (ih x b hxl hlast2)

/-! ### The DFS invariant and the elementary-cycle property -/

theorem recordCycle_inv (g : Graph) (s : DfsState) (neighbor node : Node)
    (hInv : Inv g s) (hmem : neighbor ∈ s.path) (hlast : s.path.getLast? = some node)
    (hedge : isEdge g node neighbor) : Inv g (recordCycle s neighbor) := by
  obtain ⟨tail, htail⟩ := findIdx_drop_cons neighbor s.path hmem
  have hlast2 : (neighbor :: tail).getLast? = some node := by
    have hsplit := List.take_append_drop (s.path.findIdx (fun x => x == neighbor)) s.path
    rw [htail] at hsplit
    rw [← hsplit] at hlast
    rwa [List.getLast?_append_of_ne_nil _ (by simp)] at hlast
  have hnewcycle : IsElemCycle g
      (s.path.drop (s.path.findIdx (fun x => x == neighbor)) ++ [neighbor]) := by
    refine ⟨neighbor, tail, by rw [htail]; simp, ?_, ?_⟩
    · have hch : List.Chain' (isEdge g) (neighbor :: tail) := by
        rw [← htail]
        exact chain'_drop _ _ hInv.chain
      have hch2 : List.Chain (isEdge g) neighbor tail := hch
      apply chain_snoc tail neighbor neighbor hch2
      have hld : tail.getLastD neighbor = node := by
        cases tail with
        | nil => simpa using hlast2
        | cons y t =>
          have h0 : (y :: t).getLast? = some node := by
            simpa [List.getLast?_cons_cons] using hlast2
          simp [List.getLastD_eq_getLast?, h0]
      rw [hld]
      exact hedge
    · have : (neighbor :: tail).Nodup := by
        rw [← htail]
        exact hInv.nodup.sublist (List.drop_sublist _ _)
      exact (List.nodup_cons.mpr ⟨fun hx => ((List.nodup_cons.mp this).1 hx), (List.nodup_cons.mp this).2⟩)
  constructor
  · exact hInv.chain
  · exact hInv.nodup
  · exact hInv.stack_iff
  · exact hInv.path_vis
  · intro c hc
    simp only [recordCycle] at hc
    rcases List.mem_append.mp hc with h | h
    · exact hInv.cycles_ok c h
    · rw [List.mem_singleton.mp h]
      exact hnewcycle

theorem dfsNeighbors_inv (g : Graph) (visitF : Node → DfsState → DfsState) (node : Node)
    (hF_ps : ∀ m t, (visitF m t).path = t.path ∧ (visitF m t).recStack = t.recStack)
    (hF_inv : ∀ m t, Inv g t → m ∉ t.visited →
        (∀ x, t.path.getLast? = some x → isEdge g x m) → Inv g (visitF m t)) :
    ∀ (ns : List Node) (s : DfsState), (∀ m, m ∈ ns → isEdge g node m) → Inv g s →
      s.path.getLast? = some node → Inv g (dfsNeighbors visitF ns s) := by
  intro ns
  induction ns with
  | nil => intro s _ hInv _; exact hInv
  | cons neighbor rest ih =>
    intro s hedges hInv hlast
    simp only [dfsNeighbors]
    by_cases h1 : neighbor ∈ s.visited
    · by_cases h2 : neighbor ∈ s.recStack
      · rw [if_pos h1, if_pos h2]
        refine ih _ (fun m hm => hedges m (List.mem_cons_of_mem _ hm)) ?_ ?_
        · exact recordCycle_inv g s neighbor node hInv ((hInv.stack_iff neighbor).mp h2)
            hlast (hedges neighbor (List.mem_cons_self _ _))
        · simpa [recordCycle] using hlast
      · rw [if_pos h1, if_neg h2]
        exact ih s (fun m hm => hedges m (List.mem_cons_of_mem _ hm)) hInv hlast
    · rw [if_neg h1]
      refine ih _ (fun m hm => hedges m (List.mem_cons_of_mem _ hm)) ?_ ?_
      · refine hF_inv neighbor s hInv h1 ?_
        intro x hx
        rw [hlast] at hx
        have hxn : x = node := (Option.some.inj hx).symm
        subst hxn
        exact hedges neighbor (List.mem_cons_self _ _)
      · rw [(hF_ps neighbor s).1]
        exact hlast

theorem inv_pop (g : Graph) (node : Node) (s s2 : DfsState)
    (hInv : Inv g s) (h2 : Inv g s2)
    (hpath2 : s2.path = s.path ++ [node]) (hstack2 : s2.recStack = node :: s.recStack)
    (hvis : ∀ x, x ∈ s.visited → x ∈ s2.visited) :
    Inv g ⟨s2.cycles, s2.visited, s2.recStack.erase node, s2.path.dropLast⟩ := by
  constructor
  · show List.Chain' (isEdge g) s2.path.dropLast
    rw [hpath2]
    simpa using hInv.chain
  · show s2.path.dropLast.Nodup
    rw [hpath2]
    simpa using hInv.nodup
  · intro x
    show x ∈ s2.recStack.erase node ↔ x ∈ s2.path.dropLast
    rw [hpath2, hstack2]
    simpa using hInv.stack_iff x
  · intro x hx
    have hx2 : x ∈ s.path := by
      have : x ∈ s2.path.dropLast := hx
      rw [hpath2] at this
      simpa using this
    exact hvis x (hInv.path_vis x hx2)
  · exact h2.cycles_ok

theorem dfsVisit_inv (g : Graph) :
    ∀ (fuel : Nat) (node : Node) (s : DfsState), Inv g s → node ∉ s.visited →
      (∀ x, s.path.getLast? = some x → isEdge g x node) →
      Inv g (dfsVisit g fuel node s) := by
  intro fuel
  induction fuel with
  | zero => intro node s hInv _ _; exact hInv
  | succ f ih =>
    intro node s hInv hnv hedge
    simp only [dfsVisit]
    have hnp : node ∉ s.path := fun hmem => hnv (hInv.path_vis node hmem)
    have hInv1 : Inv g ⟨s.cycles, s.visited ++ [node], node :: s.recStack, s.path ++ [node]⟩ := by
      constructor
      · show List.Chain' (isEdge g) (s.path ++ [node])
        refine List.chain'_append.mpr ⟨hInv.chain, by simp, ?_⟩
        intro x hx y hy
        have hyn : node = y := by simpa using hy
        subst hyn
        exact hedge x (by simpa using hx)
      · show (s.path ++ [node]).Nodup
        rw [List.nodup_append]
        exact ⟨hInv.nodup, by simp, by simpa using hnp⟩
      · intro x
        show x ∈ node :: s.recStack ↔ x ∈ s.path ++ [node]
        simp only [List.mem_cons, List.mem_append, List.mem_singleton, hInv.stack_iff x]
        tauto
      · intro x hx
        rcases List.mem_append.mp hx with h | h
        · exact List.mem_append_left _ (hInv.path_vis x h)
        · exact List.mem_append_right _ h
      · exact hInv.cycles_ok
    have hInv2 := dfsNeighbors_inv g (fun m t => dfsVisit g f m t) node
      (fun m t => dfsVisit_path_stack g f m t)
      (fun m t ht hm hx => ih m t ht hm hx)
      (adjOf g node) ⟨s.cycles, s.visited ++ [node], node :: s.recStack, s.path ++ [node]⟩
      (fun m hm => hm) hInv1 (by simp)
    have hps := dfsNeighbors_path_stack (fun m t => dfsVisit g f m t)
      (fun m t => dfsVisit_path_stack g f m t) (adjOf g node)
      ⟨s.cycles, s.visited ++ [node], node :: s.recStack, s.path ++ [node]⟩
    have hext := dfsNeighbors_ext (fun m t => dfsVisit g f m t)
      (fun m t => dfsVisit_ext g f m t) (adjOf g node)
      ⟨s.cycles, s.visited ++ [node], node :: s.recStack, s.path ++ [node]⟩
    exact inv_pop g node s _ hInv hInv2 hps.1 hps.2
      (fun x hx => stateExt_vis hext (List.mem_append_left _ hx))

theorem dfsForest_inv (g : Graph) (fuel : Nat) :
    ∀ (keys : List Node) (s : DfsState), Inv g s → s.path = [] →
      Inv g (dfsForest g fuel keys s) := by
  intro keys
  induction keys with
  | nil => intro s hInv _; exact hInv
  | cons k rest ih =>
    intro s hInv hpath
    simp only [dfsForest]
    by_cases h : k ∈ s.visited
    · rw [if_pos h]
      exact ih s hInv hpath
    · rw [if_neg h]
      refine ih _ (dfsVisit_inv g fuel k s hInv h ?_) ?_
      · intro x hx
        rw [hpath] at hx
        simp at hx
      · rw [(dfsVisit_path_stack g fuel k s).1]
        exact hpath

theorem initState_inv (g : Graph) : Inv g initState := by
  constructor <;> simp [initState]

/-- Every cycle in the `find_cycles` output is an elementary cycle (shared
    helper for the claims about cycle shape and acyclic graphs). -/
theorem find_cycles_mem_elem (g : Graph) (c : List Node)
    (hc : c ∈ find_cycles g) : IsElemCycle g c := by
  have hInv : Inv g (dfsForest g (graphNodes g).length (g.map Prod.fst) initState) :=
    dfsForest_inv g _ _ initState (initState_inv g) rfl
  exact hInv.cycles_ok c hc

/-- C10: every cycle returned by `find_cycles` is an elementary cycle: it
    has the form `[n, p₁, …, pₖ, n]` where each consecutive pair is an edge
    of the graph and no node repeats other than the closing repetition of
    the first node. -/
theorem find_cycles_elementary :
    ∀ (g : Graph) (c : List Node), c ∈ find_cycles g →
      ∃ n p, c = n :: (p ++ [n]) ∧ List.Chain (isEdge g) n (p ++ [n]) ∧ (n :: p).Nodup :=
  fun g c hc => find_cycles_mem_elem g c hc

theorem find_cycles_elementary_witness :
    (["a", "a"] ∈ find_cycles [("a", ["a"])]) ∧
    (∃ n p, (["a", "a"] : List Node) = n :: (p ++ [n]) ∧
      List.Chain (isEdge [("a", ["a"])]) n (p ++ [n]) ∧ (n :: p).Nodup) :=
  ⟨by decide, find_cycles_elementary [("a", ["a"])] ["a", "a"] (by decide)⟩

/-- C2: on every acyclic graph (no directed cycle), `find_cycles` returns
    the empty list. -/
theorem find_cycles_nil_of_acyclic :
    ∀ g : Graph, Acyclic g → find_cycles g = [] := by
  intro g hA
  rcases h : find_cycles g with _ | ⟨c, rest⟩
  · rfl
  · exfalso
    have hc : c ∈ find_cycles g := by rw [h]; exact List.mem_cons_self _ _
    obtain ⟨n, p, _, hchain, _⟩ := find_cycles_mem_elem g c hc
    have htg : Relation.TransGen (isEdge g) n n :=
      chain_transGen (p ++ [n]) n n hchain (by simp)
    exact hA n htg

theorem find_cycles_nil_of_acyclic_witness :
    Acyclic [("a", ([] : List Node))] ∧ find_cycles [("a", ([] : List Node))] = [] := by
  have hadj : ∀ x : Node, adjOf [("a", ([] : List Node))] x = [] := by
    intro x
    unfold adjOf
    cases hfind : List.find? (fun p => p.1 == x) [("a", ([] : List Node))] with
    | none => simp
    | some kv =>
      have hkv := List.mem_of_find?_eq_some hfind
      simp only [List.mem_singleton] at hkv
      simp [hfind, hkv]
  have hA : Acyclic [("a", ([] : List Node))] := by
    intro n htg
    cases htg with
    | single h => simp [isEdge, hadj] at h
    | tail h1 h2 => simp [isEdge, hadj] at h2
  exact ⟨hA, find_cycles_nil_of_acyclic _ hA⟩

/-! ### The self-loop claim -/

theorem findIdx_append_self (A : Node) :
    ∀ p0 : List Node, A ∉ p0 → (p0 ++ [A]).findIdx (fun x => x == A) = p0.length := by
  intro p0
  induction p0 with
  | nil => intro _; simp [List.findIdx_cons]
  | cons a p ih =>
    intro h
    have ha : a ≠ A := fun he => h (by simp [he])
    simp only [List.cons_append, List.findIdx_cons,
      show (a == A) = false by simpa using ha, cond_false]
    rw [ih (fun hm => h (List.mem_cons_of_mem _ hm))]
    simp

theorem recordCycle_selfloop (s : DfsState) (A : Node) (p0 : List Node)
    (hpath : s.path = p0 ++ [A]) (hnp : A ∉ p0) :
    [A, A] ∈ (recordCycle s A).cycles := by
  simp only [recordCycle, hpath]
  rw [findIdx_append_self A p0 hnp, List.drop_left]
  simp

theorem dfsNeighbors_selfloop_hit (visitF : Node → DfsState → DfsState) (A : Node)
    (hF_ps : ∀ m t, (visitF m t).path = t.path ∧ (visitF m t).recStack = t.recStack)
    (hF_ext : ∀ m t, StateExt t (visitF m t)) :
    ∀ (ns : List Node) (s : DfsState) (p0 : List Node), A ∈ ns → A ∈ s.visited →
      A ∈ s.recStack → s.path = p0 ++ [A] → A ∉ p0 →
      [A, A] ∈ (dfsNeighbors visitF ns s).cycles := by
  intro ns
  induction ns with
  | nil => intro s p0 h; simp at h
  | cons neighbor rest ih =>
    intro s p0 hA hvis hstk hpath hnp
    simp only [dfsNeighbors]
    by_cases h1 : neighbor ∈ s.visited
    · by_cases h2 : neighbor ∈ s.recStack
      · rw [if_pos h1, if_pos h2]
        by_cases hnA : neighbor = A
        · subst hnA
          exact stateExt_cyc (dfsNeighbors_ext visitF hF_ext rest _)
            (recordCycle_selfloop s neighbor p0 hpath hnp)
        · have hA2 : A ∈ rest := by
            rcases List.mem_cons.mp hA with h0 | h0
            · exact absurd h0.symm hnA
            · exact h0
          refine ih _ p0 hA2 ?_ ?_ ?_ hnp
          · simpa [recordCycle] using hvis
          · simpa [recordCycle] using hstk
          · simpa [recordCycle] using hpath
      · rw [if_pos h1, if_neg h2]
        have hnA : neighbor ≠ A := fun he => h2 (he ▸ hstk)
        have hA2 : A ∈ rest := by
          rcases List.mem_cons.mp hA with h0 | h0
          · exact absurd h0.symm hnA
          · exact h0
        exact ih s p0 hA2 hvis hstk hpath hnp
    · rw [if_neg h1]
      have hnA : neighbor ≠ A := fun he => h1 (he ▸ hvis)
      have hA2 : A ∈ rest := by
        rcases List.mem_cons.mp hA with h0 | h0
        · exact absurd h0.symm hnA
        · exact h0
      refine ih _ p0 hA2 ?_ ?_ ?_ hnp
      · exact stateExt_vis (hF_ext neighbor s) hvis
      · rw [(hF_ps neighbor s).2]; exact hstk
      · rw [(hF_ps neighbor s).1]; exact hpath

theorem dfsVisit_pv (g : Graph) (fuel : Nat) (m : Node) (t : DfsState)
    (hpv : ∀ x, x ∈ t.path → x ∈ t.visited) :
    ∀ x, x ∈ (dfsVisit g fuel m t).path → x ∈ (dfsVisit g fuel m t).visited := by
  intro x hx
  rw [(dfsVisit_path_stack g fuel m t).1] at hx
  exact stateExt_vis (dfsVisit_ext g fuel m t) (hpv x hx)

theorem dfsNeighbors_selfloop (visitF : Node → DfsState → DfsState) (A : Node)
    (hF_ext : ∀ m t, StateExt t (visitF m t))
    (hF_pv : ∀ m t, (∀ x, x ∈ t.path → x ∈ t.visited) →
        ∀ x, x ∈ (visitF m t).path → x ∈ (visitF m t).visited)
    (hF_sl : ∀ m t, (∀ x, x ∈ t.path → x ∈ t.visited) → A ∉ t.visited →
        A ∈ (visitF m t).visited → [A, A] ∈ (visitF m t).cycles) :
    ∀ (ns : List Node) (s : DfsState), (∀ x, x ∈ s.path → x ∈ s.visited) →
      A ∉ s.visited → A ∈ (dfsNeighbors visitF ns s).visited →
      [A, A] ∈ (dfsNeighbors visitF ns s).cycles := by
  intro ns
  induction ns with
  | nil => intro s _ hnv hvis; exact absurd hvis hnv
  | cons neighbor rest ih =>
    intro s hpv hnv hfin
    simp only [dfsNeighbors] at hfin ⊢
    by_cases h1 : neighbor ∈ s.visited
    · by_cases h2 : neighbor ∈ s.recStack
      · rw [if_pos h1, if_pos h2] at hfin ⊢
        refine ih _ ?_ ?_ hfin
        · intro x hx
          simp only [recordCycle] at hx ⊢
          exact hpv x hx
        · simpa [recordCycle] using hnv
      · rw [if_pos h1, if_neg h2] at hfin ⊢
        exact ih s hpv hnv hfin
    · rw [if_neg h1] at hfin ⊢
      by_cases hAv : A ∈ (visitF neighbor s).visited
      · exact stateExt_cyc (dfsNeighbors_ext visitF hF_ext rest _)
          (hF_sl neighbor s hpv hnv hAv)
      · exact ih _ (hF_pv neighbor s hpv) hAv hfin

theorem dfsVisit_selfloop (g : Graph) (A : Node) (hloop : A ∈ adjOf g A) :
    ∀ (fuel : Nat) (node : Node) (s : DfsState),
      (∀ x, x ∈ s.path → x ∈ s.visited) → A ∉ s.visited →
      A ∈ (dfsVisit g fuel node s).visited → [A, A] ∈ (dfsVisit g fuel node s).cycles := by
  intro fuel
  induction fuel with
  | zero => intro node s _ hnv hvis; exact absurd hvis hnv
  | succ f ih =>
    intro node s hpv hnv hvis
    simp only [dfsVisit] at hvis ⊢
    by_cases hnode : node = A
    · subst hnode
      have hnp : node ∉ s.path := fun hm => hnv (hpv node hm)
      exact dfsNeighbors_selfloop_hit (fun m t => dfsVisit g f m t) node
        (fun m t => dfsVisit_path_stack g f m t) (fun m t => dfsVisit_ext g f m t)
        (adjOf g node) ⟨s.cycles, s.visited ++ [node], node :: s.recStack, s.path ++ [node]⟩
        s.path hloop (by simp) (by simp) rfl hnp
    · have hA1 : A ∉ (⟨s.cycles, s.visited ++ [node], node :: s.recStack,
          s.path ++ [node]⟩ : DfsState).visited := by
        intro h
        rcases List.mem_append.mp h with h0 | h0
        · exact hnv h0
        · exact hnode ((by simpa using h0 : A = node)).symm
      have hpv1 : ∀ x, x ∈ (⟨s.cycles, s.visited ++ [node], node :: s.recStack,
          s.path ++ [node]⟩ : DfsState).path →
          x ∈ (⟨s.cycles, s.visited ++ [node], node :: s.recStack,
          s.path ++ [node]⟩ : DfsState).visited := by
        intro x hx
        rcases List.mem_append.mp hx with h0 | h0
        · exact List.mem_append_left _ (hpv x h0)
        · exact List.mem_append_right _ h0
      exact dfsNeighbors_selfloop (fun m t => dfsVisit g f m t) A
        (fun m t => dfsVisit_ext g f m t)
        (fun m t hp => dfsVisit_pv g f m t hp)
        (fun m t hp ha hv => ih m t hp ha hv)
        (adjOf g node)
        ⟨s.cycles, s.visited ++ [node], node :: s.recStack, s.path ++ [node]⟩
        hpv1 hA1 hvis

theorem dfsVisit_marks (g : Graph) (f : Nat) (node : Node) (s : DfsState) :
    node ∈ (dfsVisit g (f + 1) node s).visited := by
  simp only [dfsVisit]
  exact stateExt_vis
    (dfsNeighbors_ext (fun m t => dfsVisit g f m t)
      (fun m t => dfsVisit_ext g f m t) (adjOf g node)
      ⟨s.cycles, s.visited ++ [node], node :: s.recStack, s.path ++ [node]⟩)
    (by simp)

theorem dfsForest_visits (g : Graph) (fuel : Nat) (hfuel : 1 ≤ fuel) (A : Node) :
    ∀ (keys : List Node) (s : DfsState), A ∈ keys →
      A ∈ (dfsForest g fuel keys s).visited := by
  intro keys
  induction keys with
  | nil => intro s h; simp at h
  | cons k rest ih =>
    intro s hA
    simp only [dfsForest]
    by_cases hk : k ∈ s.visited
    · rw [if_pos hk]
      rcases List.mem_cons.mp hA with h | h
      · subst h
        exact stateExt_vis (dfsForest_ext g fuel rest s) hk
      · exact ih s h
    · rw [if_neg hk]
      rcases List.mem_cons.mp hA with h | h
      · subst h
        obtain ⟨f, rfl⟩ : ∃ f, fuel = f + 1 := ⟨fuel - 1, by omega⟩
        exact stateExt_vis (dfsForest_ext g (f + 1) rest _) (dfsVisit_marks g f A s)
      · exact ih _ h

theorem dfsForest_selfloop (g : Graph) (A : Node) (hloop : A ∈ adjOf g A) (fuel : Nat) :
    ∀ (keys : List Node) (s : DfsState), s.path = [] →
      (A ∈ s.visited → [A, A] ∈ s.cycles) →
      A ∈ (dfsForest g fuel keys s).visited →
      [A, A] ∈ (dfsForest g fuel keys s).cycles := by
  intro keys
  induction keys with
  | nil => intro s _ hR hv; exact hR hv
  | cons k rest ih =>
    intro s hpath hR
    simp only [dfsForest]
    by_cases hk : k ∈ s.visited
    · rw [if_pos hk]
      exact ih s hpath hR
    · rw [if_neg hk]
      refine ih _ ?_ ?_
      · rw [(dfsVisit_path_stack g fuel k s).1]
        exact hpath
      · intro hAv
        by_cases hA0 : A ∈ s.visited
        · exact stateExt_cyc (dfsVisit_ext g fuel k s) (hR hA0)
        · refine dfsVisit_selfloop g A hloop fuel k s ?_ hA0 hAv
          intro x hx
          rw [hpath] at hx
          simp at hx

/-- C8: whenever a node `A` has an edge to itself, `find_cycles` records
    the one-element cycle `[A, A]`, whatever the rest of the graph is. -/
theorem selfloop_cycle_found :
    ∀ (g : Graph) (A : Node), A ∈ g.map Prod.fst → A ∈ adjOf g A →
      [A, A] ∈ find_cycles g := by
  intro g A hkey hloop
  have hfuel : 1 ≤ (graphNodes g).length := by
    have hmem : A ∈ graphNodes g := (dedupFirst_mem A _).mpr (List.mem_append_left _ hkey)
    exact List.length_pos.mpr (List.ne_nil_of_mem hmem)
  have hvis := dfsForest_visits g _ hfuel A (g.map Prod.fst) initState hkey
  exact dfsForest_selfloop g A hloop _ (g.map Prod.fst) initState rfl
    (by intro h; simp [initState] at h) hvis

theorem selfloop_cycle_found_witness :
    (("a" : Node) ∈ ([("a", ["a"])] : Graph).map Prod.fst) ∧
    (("a" : Node) ∈ adjOf [("a", ["a"])] "a") ∧
    ["a", "a"] ∈ find_cycles [("a", ["a"])] :=
  ⟨by decide, by decide, selfloop_cycle_found [("a", ["a"])] "a" (by decide) (by decide)⟩

/-! ### Termination: any fuel of at least the node count gives the same
    result, because each node moves from unvisited to visited exactly once
    and is never re-explored. -/

theorem adjOf_sub_nodes (g : Graph) (n m : Node) (hm : m ∈ adjOf g n) :
    m ∈ graphNodes g := by
  unfold adjOf at hm
  cases hfind : List.find? (fun p => p.1 == n) g with
  | none => rw [hfind] at hm; simp at hm
  | some kv =>
    rw [hfind] at hm
    simp only [Option.map_some', Option.getD_some] at hm
    have hkv := List.mem_of_find?_eq_some hfind
    apply (dedupFirst_mem m _).mpr
    apply List.mem_append_right
    exact List.mem_flatten.mpr ⟨kv.2, List.mem_map_of_mem Prod.snd hkv, hm⟩

theorem numUnvisited_mono (g : Graph) {s t : DfsState} (h : StateExt s t) :
    numUnvisited g t ≤ numUnvisited g s := by
  unfold numUnvisited
  have hsub : ∀ x : Node,
      (decide (¬ x ∈ t.visited)) = true → (decide (¬ x ∈ s.visited)) = true := by
    intro x hx
    simp only [decide_eq_true_eq] at hx ⊢
    exact fun hs => hx (stateExt_vis h hs)
  exact List.Sublist.length_le (List.monotone_filter_right _ hsub)

theorem numUnvisited_pos (g : Graph) (s : DfsState) (node : Node)
    (h1 : node ∈ graphNodes g) (h2 : node ∉ s.visited) : 1 ≤ numUnvisited g s := by
  unfold numUnvisited
  have hmem : node ∈ (graphNodes g).filter (fun x => ¬ (x ∈ s.visited)) :=
    List.mem_filter.mpr ⟨h1, by simpa using h2⟩
  exact List.length_pos.mpr (List.ne_nil_of_mem hmem)

theorem filter_not_mem_append_lt (l v : List Node) (node : Node)
    (h1 : node ∈ l) (h2 : node ∉ v) :
    (l.filter (fun x => ¬ (x ∈ v ++ [node]))).length
      < (l.filter (fun x => ¬ (x ∈ v))).length := by
  have hsub : List.Sublist (l.filter (fun x => ¬ (x ∈ v ++ [node])))
      (l.filter (fun x => ¬ (x ∈ v))) := by
    apply List.monotone_filter_right
    intro a ha
    simp only [decide_eq_true_eq, List.mem_append, List.mem_singleton] at ha ⊢
    exact fun hv => ha (Or.inl hv)
  have hmem1 : node ∈ l.filter (fun x => ¬ (x ∈ v)) :=
    List.mem_filter.mpr ⟨h1, by simpa using h2⟩
  have hmem2 : node ∉ l.filter (fun x => ¬ (x ∈ v ++ [node])) := by
    intro h
    have := (List.mem_filter.mp h).2
    simp at this
  have hne : l.filter (fun x => ¬ (x ∈ v ++ [node])) ≠ l.filter (fun x => ¬ (x ∈ v)) := by
    intro he
    rw [he] at hmem2
    exact hmem2 hmem1
  have hle := hsub.length_le
  rcases Nat.lt_or_ge (l.filter (fun x => ¬ (x ∈ v ++ [node]))).length
      (l.filter (fun x => ¬ (x ∈ v))).length with h | h
  · exact h
  · exact absurd (hsub.eq_of_length (Nat.le_antisymm hle h)) hne

theorem numUnvisited_push (g : Graph) (s : DfsState) (node : Node)
    (c : List (List Node)) (rs p : List Node)
    (h1 : node ∈ graphNodes g) (h2 : node ∉ s.visited) :
    numUnvisited g ⟨c, s.visited ++ [node], rs, p⟩ < numUnvisited g s :=
  filter_not_mem_append_lt (graphNodes g) s.visited node h1 h2

theorem dfsNeighbors_fuel_irrel (g : Graph) (f f2 : Nat)
    (hV : ∀ (node : Node) (s : DfsState), node ∈ graphNodes g → node ∉ s.visited →
        numUnvisited g s ≤ f → numUnvisited g s ≤ f2 →
        dfsVisit g f node s = dfsVisit g f2 node s) :
    ∀ (ns : List Node) (s : DfsState), (∀ m ∈ ns, m ∈ graphNodes g) →
      numUnvisited g s ≤ f → numUnvisited g s ≤ f2 →
      dfsNeighbors (fun m t => dfsVisit g f m t) ns s
        = dfsNeighbors (fun m t => dfsVisit g f2 m t) ns s := by
  intro ns
  induction ns with
  | nil => intro s _ _ _; rfl
  | cons neighbor rest ih =>
    intro s hns hb1 hb2
    simp only [dfsNeighbors]
    by_cases h1 : neighbor ∈ s.visited
    · by_cases h2 : neighbor ∈ s.recStack
      · simp only [if_pos h1, if_pos h2]
        exact ih _ (fun m hm => hns m (List.mem_cons_of_mem _ hm)) hb1 hb2
      · simp only [if_pos h1, if_neg h2]
        exact ih s (fun m hm => hns m (List.mem_cons_of_mem _ hm)) hb1 hb2
    · simp only [if_neg h1]
      have heq := hV neighbor s (hns neighbor (List.mem_cons_self _ _)) h1 hb1 hb2
      rw [heq]
      refine ih _ (fun m hm => hns m (List.mem_cons_of_mem _ hm)) ?_ ?_
      · exact le_trans (numUnvisited_mono g (dfsVisit_ext g f2 neighbor s)) hb1
      · exact le_trans (numUnvisited_mono g (dfsVisit_ext g f2 neighbor s)) hb2

theorem dfsVisit_fuel_irrel (g : Graph) :
    ∀ (f1 f2 : Nat) (node : Node) (s : DfsState),
      node ∈ graphNodes g → node ∉ s.visited →
      numUnvisited g s ≤ f1 → numUnvisited g s ≤ f2 →
      dfsVisit g f1 node s = dfsVisit g f2 node s := by
  intro f1
  induction f1 with
  | zero =>
    intro f2 node s hn hnv h1 h2
    have := numUnvisited_pos g s node hn hnv
    omega
  | succ f ihf =>
    intro f2 node s hn hnv h1 h2
    have hpos := numUnvisited_pos g s node hn hnv
    obtain ⟨f2', rfl⟩ : ∃ k, f2 = k + 1 := ⟨f2 - 1, by omega⟩
    simp only [dfsVisit]
    have hb1 : numUnvisited g
        ⟨s.cycles, s.visited ++ [node], node :: s.recStack, s.path ++ [node]⟩ ≤ f := by
      have := numUnvisited_push g s node s.cycles (node :: s.recStack) (s.path ++ [node]) hn hnv
      omega
    have hb2 : numUnvisited g
        ⟨s.cycles, s.visited ++ [node], node :: s.recStack, s.path ++ [node]⟩ ≤ f2' := by
      have := numUnvisited_push g s node s.cycles (node :: s.recStack) (s.path ++ [node]) hn hnv
      omega
    have hkey := dfsNeighbors_fuel_irrel g f f2'
      (fun n t hn0 hnv0 hx1 hx2 => ihf f2' n t hn0 hnv0 hx1 hx2)
      (adjOf g node) ⟨s.cycles, s.visited ++ [node], node :: s.recStack, s.path ++ [node]⟩
      (fun m hm => adjOf_sub_nodes g node m hm) hb1 hb2
    rw [hkey]

theorem dfsForest_fuel_irrel (g : Graph) (f1 f2 : Nat)
    (h1 : (graphNodes g).length ≤ f1) (h2 : (graphNodes g).length ≤ f2) :
    ∀ (keys : List Node) (s : DfsState), (∀ k ∈ keys, k ∈ graphNodes g) →
      dfsForest g f1 keys s = dfsForest g f2 keys s := by
  intro keys
  induction keys with
  | nil => intro s _; rfl
  | cons k rest ih =>
    intro s hkeys
    simp only [dfsForest]
    by_cases hk : k ∈ s.visited
    · simp only [if_pos hk]
      exact ih s (fun m hm => hkeys m (List.mem_cons_of_mem _ hm))
    · simp only [if_neg hk]
      have hb : numUnvisited g s ≤ (graphNodes g).length := by
        unfold numUnvisited
        exact List.length_filter_le _ _
      have heq := dfsVisit_fuel_irrel g f1 f2 k s (hkeys k (List.mem_cons_self _ _)) hk
        (le_trans hb h1) (le_trans hb h2)
      rw [heq]
      exact ih _ (fun m hm => hkeys m (List.mem_cons_of_mem _ hm))

/-- C9: `find_cycles` terminates on every finite graph because each node
    transitions unvisited → active → done exactly once and is never
    re-explored once done: the fuel-indexed embedding of the recursive
    `dfs` gives the same answer for every fuel of at least the number of
    graph nodes, i.e. a recursion depth of one visit per node suffices. -/
theorem find_cycles_fuel_sufficient :
    ∀ (g : Graph) (fuel : Nat), (graphNodes g).length ≤ fuel →
      find_cycles_fuel g fuel = find_cycles g := by
  intro g fuel hfuel
  unfold find_cycles find_cycles_fuel
  rw [dfsForest_fuel_irrel g fuel (graphNodes g).length hfuel (Nat.le_refl _)
    (g.map Prod.fst) initState
    (fun k hk => (dedupFirst_mem k _).mpr (List.mem_append_left _ hk))]

theorem find_cycles_fuel_sufficient_witness :
    ((graphNodes [("a", ["b"]), ("b", ["a"])]).length ≤ 5) ∧
    find_cycles_fuel [("a", ["b"]), ("b", ["a"])] 5
      = find_cycles [("a", ["b"]), ("b", ["a"])] :=
  ⟨by decide, find_cycles_fuel_sufficient [("a", ["b"]), ("b", ["a"])] 5 (by decide)⟩

end CircularDeps
